import Mathlib

/-!
# Verification of the VB resegmentation wrapper

Shallow embedding of `recipes/track1/local/diarization/VB_resegmentation.py`
(the VB-HMM resegmentation driver of the DIHARD III baseline) together with
proofs about its frame-label model, RTTM turn encoder, RTTM loader and the
label-reconstruction step of `main`.

Conventions of the embedding:

* frame indices and frame counts are `ℕ`, labels are `ℤ` (the source uses
  numpy `int32`/`int` arrays whose values stay far from the 32-bit range);
* seconds are exact rationals `ℚ`; the source emits onsets/durations with
  two decimal digits and the default frame step is `0.01`, so for the
  default step the decimal formatting is lossless and rational arithmetic
  coincides with the decimal text values;
* Python `int(x)` (truncation toward zero) is `pyInt`;
* a raised `ValueError` is `none`; printing a warning is modelled as a
  returned `Bool` flag where a claim needs it.
-/

namespace VBReseg

/-- Default frame step in seconds (`step=0.01` throughout the script);
`mkRat 1 100` is the rational `1/100`. -/
def step : ℚ := mkRat 1 100

/-- Python `int(x)`: truncation toward zero.  Since a rational's
denominator is positive, truncating `x` toward zero is exactly
truncating division of the numerator by the denominator. -/
def pyInt (x : ℚ) : ℤ := x.num.tdiv x.den

/-- The `Segment` dataclass: a speech segment with inclusive frame bounds.
The embedding keeps validated (hence nonnegative) frame indices as `ℕ`. -/
structure Segment where
  recording_id : String
  onset : ℕ
  offset : ℕ
  speaker_id : String
deriving DecidableEq, Repr

/-- One line of `load_rttm`, after the whitespace split: onset seconds
(field 3), duration seconds (field 4) and speaker id (field 7). -/
structure RTTMLine where
  onset : ℚ
  dur : ℚ
  speaker_id : String
deriving DecidableEq, Repr

/-- The per-line body of `load_rttm`: compute frame indices, clamp an
offset that runs past the end of the recording (warning flag `true`),
then validate `0 <= onset_frames <= offset_frames`; a violation raises
`ValueError` (`none`), otherwise the segment is kept. -/
def processLine (line : RTTMLine) (recording_id : String) (n_frames : ℕ)
    (stp : ℚ) : Bool × Option Segment :=
  let offset : ℚ := line.onset + line.dur
  let onset_frames : ℤ := pyInt (line.onset / stp)
  let offset_frames0 : ℤ := pyInt (offset / stp)
  let warn : Bool := decide ((n_frames : ℤ) ≤ offset_frames0)
  let offset_frames : ℤ :=
    if (n_frames : ℤ) ≤ offset_frames0 then (n_frames : ℤ) - 1 else offset_frames0
  if 0 ≤ onset_frames ∧ onset_frames ≤ offset_frames then
    (warn, some ⟨recording_id, onset_frames.toNat, offset_frames.toNat, line.speaker_id⟩)
  else
    (warn, none)

/-- The frame update of the inner loop of `get_labels`: keep an identical
label, write a speaker label into a silent frame, and mark any other
collision as overlap `1`. -/
def updateFrame (cur lab : ℤ) : ℤ :=
  if cur = lab then cur
  else if cur = 0 then lab
  else 1

/-- The loop `for ind in range(onset, offset+1): ref[ind] = ...` of
`get_labels`.  Every iteration reads and writes only frame `ind`, so the
loop is a pointwise update of the frames in `[onset, offset]`; `i` is the
index of the head of the remaining list. -/
def applySegFrom (lab : ℤ) (onset offset i : ℕ) : List ℤ → List ℤ
  | [] => []
  | cur :: rest =>
    (if onset ≤ i ∧ i ≤ offset then updateFrame cur lab else cur)
      :: applySegFrom lab onset offset (i + 1) rest

/-- Apply one segment's label to a frame labeling. -/
def applySeg (ref : List ℤ) (lab : ℤ) (onset offset : ℕ) : List ℤ :=
  applySegFrom lab onset offset 0 ref

/-- The first loop of `get_labels`: map each distinct speaker id to an
integer `≥ 2` in order of first appearance.  `c` is the running
`n_speakers` counter; a new speaker gets `n_speakers + 1` after the
increment, i.e. `c + 2`. -/
def buildSpeakerDictAux (dict : List (String × ℤ)) (c : ℤ) :
    List Segment → List (String × ℤ)
  | [] => dict
  | seg :: rest =>
    if (dict.lookup seg.speaker_id).isSome then
      buildSpeakerDictAux dict c rest
    else
      buildSpeakerDictAux (dict ++ [(seg.speaker_id, c + 2)]) (c + 1) rest

/-- The `speaker_dict` of `get_labels`. -/
def buildSpeakerDict (segs : List Segment) : List (String × ℤ) :=
  buildSpeakerDictAux [] 0 segs

/-- Embedding of `get_labels(segs, n_frames)`: the frame labeling built from a
segmentation; `0` is silence, `1` overlap, `n > 1` the sole speaker. -/
def get_labels (segs : List Segment) (n_frames : ℕ) : List ℤ :=
  let dict := buildSpeakerDict segs
  segs.foldl
    (fun ref seg =>
      applySeg ref ((dict.lookup seg.speaker_id).getD 0) seg.onset seg.offset)
    (List.replicate n_frames 0)

/-- The mask `init_labels >= 2` of `main`. -/
def maskOf (init_labels : List ℤ) : List Bool :=
  init_labels.map (fun l => decide (2 ≤ l))

/-- Number of masked-in (usable) frames of a recording. -/
def n_masked (init_labels : List ℤ) : ℕ :=
  (maskOf init_labels).count true

/-- The skip guard of the driving loop of `main`: the source tests
`len(init_labels) == 0`, i.e. the length of the FULL labeling, not of the
masked one. -/
def skips_recording (init_labels : List ℤ) : Bool :=
  init_labels.length == 0

/-- Loop of `np.argmax` over one row: index of the first maximal entry.  `best`
is the current best index, `bestVal` its value, `i` the index of the head
of the remaining list. -/
def argmaxAux (i best : ℕ) (bestVal : ℚ) : List ℚ → ℕ
  | [] => best
  | x :: xs => if bestVal < x then argmaxAux (i + 1) i x xs
               else argmaxAux (i + 1) best bestVal xs

/-- Embedding of `np.argmax(row)`; `0` on an empty row (numpy raises there, but no
claim evaluates it on an empty row). -/
def argmax : List ℚ → ℕ
  | [] => 0
  | x :: xs => argmaxAux 1 0 x xs

/-- The label reconstruction of `main`:
`predicted_labels = zeros(len(mask)); predicted_labels[mask] = argmax(q, 1) + 2`.
Fancy-index assignment puts the `k`-th row's value at the `k`-th
masked-in frame, i.e. the rows of `q` are consumed in order along the
`true` entries of the mask; masked-out frames keep `0`. -/
def reconstruct : List Bool → List (List ℚ) → List ℤ
  | [], _ => []
  | true :: ms, r :: rs => ((argmax r : ℤ) + 2) :: reconstruct ms rs
  | true :: ms, [] => 0 :: reconstruct ms []
  | false :: ms, rs => 0 :: reconstruct ms rs

/-- One output turn of `write_rttm_file`: onset seconds, duration
seconds, and the integer label rendered into the `speaker{label}` tag. -/
structure Turn where
  onset : ℚ
  duration : ℚ
  label : ℤ
deriving DecidableEq, Repr

/-- The array `np.diff` is applied to in `write_rttm_file`:
`labels` padded with the sentinel `-999` at both ends. -/
def padded (labels : List ℤ) : List ℤ :=
  -999 :: (labels ++ [-999])

/-- Embedding of `cp_inds = np.nonzero(np.diff(labels, prepend=-999, append=-999) != 0)[0]`:
the indices `i < len(labels) + 1` where the padded array changes value. -/
def cpInds (labels : List ℤ) : List ℕ :=
  (List.range (labels.length + 1)).filter
    (fun i => decide ((padded labels).getD (i + 1) 0 ≠ (padded labels).getD i 0))

/-- Embedding of `zip(bis, eis)` with `bis = cp_inds[:-1]` and `eis = cp_inds[1:] - 1`:
the inclusive `(begin, end)` frame pairs of the maximal constant runs. -/
def runPairs (labels : List ℤ) : List (ℕ × ℕ) :=
  (cpInds labels).dropLast.zip (((cpInds labels).drop 1).map (fun c => c - 1))

/-- The run pairs together with the label read at the run start
(`label = labels[bi]`). -/
def labeledRuns (labels : List ℤ) : List (ℕ × ℕ × ℤ) :=
  (runPairs labels).map (fun be => (be.1, be.2, labels.getD be.1 0))

/-- The loop body of `write_rttm_file`: drop a run whose label is `< 2`,
otherwise emit one turn with `onset = bi*step` and
`duration = (ei - bi + 1)*step`. -/
def turnF (stp : ℚ) (r : ℕ × ℕ × ℤ) : Option Turn :=
  if r.2.2 < 2 then none
  else some ⟨(r.1 : ℚ) * stp, ((r.2.1 - r.1 + 1 : ℕ) : ℚ) * stp, r.2.2⟩

/-- The sequence of turns written by `write_rttm_file(labels, step)`. -/
def write_rttm_turns (labels : List ℤ) (stp : ℚ) : List Turn :=
  (labeledRuns labels).filterMap (turnF stp)

/-- Overwrite the frames `[b, e]` (inclusive) with label `lab`; `i` is
the index of the head of the remaining list.  This is the painting step
of expanding a loaded turn into a label array. -/
def paintFrom (lab : ℤ) (b e i : ℕ) : List ℤ → List ℤ
  | [] => []
  | cur :: rest =>
    (if b ≤ i ∧ i ≤ e then lab else cur) :: paintFrom lab b e (i + 1) rest

/-- Paint one decoded turn onto an array. -/
def paint (arr : List ℤ) (lab : ℤ) (b e : ℕ) : List ℤ :=
  paintFrom lab b e 0 arr

/-- Expand a list of turns over `n` frames: decode each turn's onset and
duration back to frame indices exactly as `load_rttm` does
(`processLine`), and paint the turn's label over the decoded inclusive
frame range; a turn `load_rttm` would reject aborts the expansion. -/
def expandTurnsAux (n : ℕ) (arr : List ℤ) : List Turn → Option (List ℤ)
  | [] => some arr
  | t :: ts =>
    match (processLine ⟨t.onset, t.duration, "spk"⟩ "rec" n step).2 with
    | none => none
    | some seg => expandTurnsAux n (paint arr t.label seg.onset seg.offset) ts

/-- Expand turns into a fresh all-zero array of `n` frames. -/
def expandTurns (n : ℕ) (ts : List Turn) : Option (List ℤ) :=
  expandTurnsAux n (List.replicate n 0) ts

/-- Round trip of the testable property: encode a full-length label array
to RTTM turns with the default step, then re-expand the turns over the
same number of frames. -/
def roundTrip (labels : List ℤ) : Option (List ℤ) :=
  expandTurns labels.length (write_rttm_turns labels step)

/-! ## Specification-side definitions (used to state the claims) -/

/-- Distinct elements of a list in order of first appearance, excluding
those already in `seen`. -/
def firstAppearAux (seen : List String) : List String → List String
  | [] => []
  | x :: xs =>
    if seen.contains x then firstAppearAux seen xs
    else x :: firstAppearAux (seen ++ [x]) xs

/-- Distinct elements of a list in order of first appearance. -/
def firstAppear (l : List String) : List String :=
  firstAppearAux [] l

/-- Pair the elements of a list with the values `c + 2, c + 3, …`. -/
def enumVals (c : ℤ) : List String → List (String × ℤ)
  | [] => []
  | x :: xs => (x, c + 2) :: enumVals (c + 1) xs

/-- Predicate stating that `(b, e, l)` is a maximal run of the constant label `l` in `labels`:
inclusive bounds, constant value, and not extendable on either side. -/
def isMaxRun (labels : List ℤ) (b e : ℕ) (l : ℤ) : Prop :=
  b ≤ e ∧ e < labels.length ∧
  (∀ i < labels.length, b ≤ i → i ≤ e → labels.getD i 0 = l) ∧
  (b = 0 ∨ labels.getD (b - 1) 0 ≠ l) ∧
  (e + 1 = labels.length ∨ labels.getD (e + 1) 0 ≠ l)

instance isMaxRunDecidable (labels : List ℤ) (b e : ℕ) (l : ℤ) :
    Decidable (isMaxRun labels b e l) := by
  unfold isMaxRun
  infer_instance

/-- Tiling predicate `Tiles labels runs lo`: `runs` is the list of maximal constant runs
of `labels` covering exactly the frames `[lo, labels.length)`, in order,
with adjacent runs carrying different labels. -/
inductive Tiles (labels : List ℤ) : List (ℕ × ℕ × ℤ) → ℕ → Prop
  | nil (lo : ℕ) (h : lo = labels.length) : Tiles labels [] lo
  | cons (b e : ℕ) (l : ℤ) (rest : List (ℕ × ℕ × ℤ)) (lo : ℕ)
      (hb : b = lo) (hbe : b ≤ e) (hen : e < labels.length)
      (hconst : ∀ i, b ≤ i → i ≤ e → labels.getD i 0 = l)
      (hdiff : ∀ b2 e2 l2 rest2, rest = (b2, e2, l2) :: rest2 → l2 ≠ l)
      (htail : Tiles labels rest (e + 1)) : Tiles labels ((b, e, l) :: rest) lo

/-- Two-speaker segmentation with partially overlapping segments
`[50, 70]` and `[60, 90]` (Scenario A of the specification). -/
def demoSegsC2 : List Segment :=
  [⟨"rec", 50, 70, "A"⟩, ⟨"rec", 60, 90, "B"⟩]

/-- A segmentation whose first-appearance speaker order ("B" before
"A") differs from the alphabetic order. -/
def demoSegsC7 : List Segment :=
  [⟨"rec", 0, 5, "B"⟩, ⟨"rec", 10, 20, "A"⟩, ⟨"rec", 30, 40, "B"⟩]

/-- Three segments over a 100-frame recording used as a concrete input
for the labeling invariants. -/
def demoSegsC8 : List Segment :=
  [⟨"rec", 50, 70, "A"⟩, ⟨"rec", 60, 90, "B"⟩, ⟨"rec", 95, 99, "A"⟩]

/-- Proof-side generalization of `cpInds`: the changepoint indices of
`labels` preceded by an arbitrary value `pre` (the source pads with the
sentinel `pre = -999`) and followed by the trailing sentinel.
`cpInds labels` is definitionally `cpFrom (-999) labels`. -/
def cpFrom (pre : ℤ) (labels : List ℤ) : List ℕ :=
  (List.range (labels.length + 1)).filter
    (fun i => decide ((pre :: (labels ++ [-999])).getD (i + 1) 0 ≠
                      (pre :: (labels ++ [-999])).getD i 0))

/-- Proof-side name for the `(begin, end)` pairing of a changepoint
list; `runPairs labels` is definitionally `pairsOf (cpInds labels)`. -/
def pairsOf (c : List ℕ) : List (ℕ × ℕ) :=
  c.dropLast.zip ((c.drop 1).map (fun v => v - 1))

/-! ## Arithmetic helper lemmas -/

theorem step_ne_zero : step ≠ 0 := by decide

theorem step_pos : 0 < step := by decide

/-- The function `pyInt` is the identity on natural numbers. -/
theorem pyInt_natCast (k : ℕ) : pyInt ((k : ℚ)) = k := by
  simp [pyInt, Rat.num_natCast, Rat.den_natCast]

/-- Dividing `k` seconds by the default step gives frame `k * 100`. -/
theorem pyInt_nat_div_step (k : ℕ) : pyInt ((k : ℚ) / step) = (k : ℤ) * 100 := by
  have h : ((k : ℚ)) / step = ((k * 100 : ℕ) : ℚ) := by
    rw [step, Rat.mkRat_eq_div]
    push_cast
    rw [div_div_eq_mul_div, div_one]
  rw [h, pyInt_natCast]
  push_cast
  ring

/-! ## C1: skip of a recording with zero usable frames -/

/-- C1: the claim says a recording with zero masked-in frames (no frame
label `≥ 2`) is skipped with a warning and the engine is never invoked.
The code's guard is `len(init_labels) == 0`, which tests the FULL
labeling's length, not the masked one, although its own warning text
speaks of "no non-overlapping speech".  At the failing input
`init_labels = [0]` (a one-frame silent recording) the number of usable
frames is `0`, yet the guard does not fire, so the engine is invoked and
an RTTM write is attempted; the guard fires only on a zero-length
recording.  This theorem evaluates the embedded guard at that input. -/
theorem claim_C1_code_eval :
    n_masked [(0 : ℤ)] = 0 ∧ skips_recording [(0 : ℤ)] = false ∧
    skips_recording ([] : List ℤ) = true := by
  decide

/-! ## C2: frame update semantics of `get_labels` -/

/-- C2: for a frame covered by a segment with speaker label `lab`: a
silent frame (`0`) receives `lab`; a frame already holding `lab` is
unchanged (idempotence); a frame holding anything else (a different
speaker's label, or the overlap label `1`) becomes `1`, and in
particular once a frame is `1` no later segment can change it (speaker
labels are `≥ 2`, hence `≠ 1`).  Moreover the two-speaker scenario with
segments `[50, 70]` and `[60, 90]` yields overlap `1` exactly on
`[60, 70]`, labels `2` on `[50, 59]` and `3` on `[71, 90]`, and silence
elsewhere. -/
theorem claim_C2 :
    (∀ l : ℤ, updateFrame 0 l = l) ∧
    (∀ l : ℤ, updateFrame l l = l) ∧
    (∀ cur l : ℤ, cur ≠ 0 → cur ≠ l → updateFrame cur l = 1) ∧
    (∀ l : ℤ, 2 ≤ l → updateFrame 1 l = 1) ∧
    ((get_labels demoSegsC2 100).length = 100 ∧
     ∀ i < 100, (get_labels demoSegsC2 100).getD i 0 =
       if 60 ≤ i ∧ i ≤ 70 then 1
       else if 50 ≤ i ∧ i ≤ 59 then 2
       else if 71 ≤ i ∧ i ≤ 90 then 3
       else 0) := by
  refine ⟨?_, ?_, ?_, ?_, by decide⟩
  · intro l
    unfold updateFrame
    split_ifs with h1 h2 <;> omega
  · intro l
    simp [updateFrame]
  · intro cur l h0 hl
    simp [updateFrame, h0, hl]
  · intro l hl
    unfold updateFrame
    split_ifs with h1 h2 <;> omega

/-- Witness for C2: a frame holding speaker label `5` hit by a segment
of speaker label `7` becomes overlap `1`, and a frame already marked
overlap stays `1` under a later segment with label `3`. -/
theorem claim_C2_witness :
    updateFrame 5 7 = 1 ∧ updateFrame 1 3 = 1 :=
  ⟨claim_C2.2.2.1 5 7 (by decide) (by decide),
   claim_C2.2.2.2.1 3 (by decide)⟩

/-! ## C4: clamping versus fatal rejection in `load_rttm` -/

/-- C4: in the per-line processing of `load_rttm`, (1) an offset frame
index `≥ n_frames` is clamped to `n_frames - 1` with a warning and the
segment is kept when the onset passes the subsequent validation; (2) an
onset that is negative or exceeds the (clamped) offset raises
`ValueError` (modelled as `none`) and no segment is added; (3) when no
clamping is needed and the bounds validate, the segment is kept without
a warning. -/
theorem claim_C4 (line : RTTMLine) (rid : String) (n : ℕ) (stp : ℚ) :
    ((n : ℤ) ≤ pyInt ((line.onset + line.dur) / stp) →
      0 ≤ pyInt (line.onset / stp) →
      pyInt (line.onset / stp) ≤ (n : ℤ) - 1 →
      processLine line rid n stp =
        (true, some ⟨rid, (pyInt (line.onset / stp)).toNat,
                     ((n : ℤ) - 1).toNat, line.speaker_id⟩)) ∧
    (¬ (0 ≤ pyInt (line.onset / stp) ∧
        pyInt (line.onset / stp) ≤
          (if (n : ℤ) ≤ pyInt ((line.onset + line.dur) / stp)
           then (n : ℤ) - 1
           else pyInt ((line.onset + line.dur) / stp))) →
      (processLine line rid n stp).2 = none) ∧
    (pyInt ((line.onset + line.dur) / stp) < (n : ℤ) →
      0 ≤ pyInt (line.onset / stp) →
      pyInt (line.onset / stp) ≤ pyInt ((line.onset + line.dur) / stp) →
      processLine line rid n stp =
        (false, some ⟨rid, (pyInt (line.onset / stp)).toNat,
                      (pyInt ((line.onset + line.dur) / stp)).toNat,
                      line.speaker_id⟩)) := by
  refine ⟨?_, ?_, ?_⟩
  · intro hclamp h0 hle
    simp only [processLine, if_pos hclamp, if_pos (And.intro h0 hle),
      decide_eq_true_eq]
    simp [hclamp]
  · intro hbad
    simp only [processLine]
    split_ifs with h1 h2 h3 <;> first
      | rfl
      | (exfalso; apply hbad; simp_all)
  · intro hlt h0 hle
    have hnot : ¬ (n : ℤ) ≤ pyInt ((line.onset + line.dur) / stp) := not_le.mpr hlt
    simp only [processLine, if_neg hnot, if_pos (And.intro h0 hle)]
    simp [hnot]

/-- Witness for C4: with `n_frames = 100` and the default step, the line
with onset 0 s and duration 2 s has offset frame 200, which is clamped
to 99 with a warning and kept; the line with onset 5 s and duration
−2 s (offset before onset, Scenario D) is rejected. -/
theorem claim_C4_witness :
    processLine ⟨0, 2, "A"⟩ "r" 100 step =
      (true, some ⟨"r", 0, 99, "A"⟩) ∧
    (processLine ⟨5, -2, "A"⟩ "r" 100 step).2 = none := by
  have e2 : pyInt (((0 : ℚ) + 2) / step) = 200 := by
    rw [show ((0 : ℚ) + 2) = ((2 : ℕ) : ℚ) by norm_num, pyInt_nat_div_step]
    decide
  have e0 : pyInt ((0 : ℚ) / step) = 0 := by
    rw [show (0 : ℚ) = ((0 : ℕ) : ℚ) by norm_num, pyInt_nat_div_step]
    decide
  have e5 : pyInt ((5 : ℚ) / step) = 500 := by
    rw [show (5 : ℚ) = ((5 : ℕ) : ℚ) by norm_num, pyInt_nat_div_step]
    decide
  have e3 : pyInt (((5 : ℚ) + -2) / step) = 300 := by
    rw [show ((5 : ℚ) + -2) = ((3 : ℕ) : ℚ) by norm_num, pyInt_nat_div_step]
    decide
  constructor
  · have h := (claim_C4 ⟨0, 2, "A"⟩ "r" 100 step).1
      (by show (100 : ℤ) ≤ pyInt (((0 : ℚ) + 2) / step); rw [e2]; decide)
      (by show (0 : ℤ) ≤ pyInt ((0 : ℚ) / step); rw [e0])
      (by show pyInt ((0 : ℚ) / step) ≤ (100 : ℤ) - 1; rw [e0]; decide)
    rw [h]
    show (true, some (⟨"r", (pyInt ((0 : ℚ) / step)).toNat, ((100 : ℤ) - 1).toNat, "A"⟩ : Segment))
      = (true, some (⟨"r", 0, 99, "A"⟩ : Segment))
    rw [e0]
    decide
  · exact (claim_C4 ⟨5, -2, "A"⟩ "r" 100 step).2.1
      (by show ¬ (0 ≤ pyInt ((5 : ℚ) / step) ∧
            pyInt ((5 : ℚ) / step) ≤
              (if (100 : ℤ) ≤ pyInt (((5 : ℚ) + -2) / step)
               then (100 : ℤ) - 1
               else pyInt (((5 : ℚ) + -2) / step)))
          rw [e5, e3]; decide)

/-! ## C10: a segment starting past the end of the recording is fatal -/

/-- C10: in `load_rttm`, a line whose onset frame index is `≥ n_frames`
always raises `ValueError` and adds no segment: the offset is clamped to
`n_frames - 1` before the `0 <= onset <= offset` validation, so either
the offset was clamped below the onset or it was already below
`n_frames ≤ onset`; an out-of-range onset is never clamped or accepted
with only a warning. -/
theorem claim_C10 (line : RTTMLine) (rid : String) (n : ℕ) (stp : ℚ)
    (h : (n : ℤ) ≤ pyInt (line.onset / stp)) :
    (processLine line rid n stp).2 = none := by
  simp only [processLine]
  by_cases hc : (n : ℤ) ≤ pyInt ((line.onset + line.dur) / stp)
  · rw [if_pos hc, if_neg (by omega)]
  · rw [if_neg hc, if_neg (by omega)]

/-- Witness for C10: a line starting at 200 s in a 100-frame recording
(onset frame 20000) is rejected. -/
theorem claim_C10_witness :
    (processLine ⟨200, 1, "A"⟩ "r" 100 step).2 = none :=
  claim_C10 ⟨200, 1, "A"⟩ "r" 100 step
    (by show (100 : ℤ) ≤ pyInt ((200 : ℚ) / step)
        rw [show (200 : ℚ) = ((200 : ℕ) : ℚ) by norm_num, pyInt_nat_div_step]
        decide)

/-! ## C6: label reconstruction from the posterior matrix -/

/-- C6: with as many posterior rows as masked-in frames, the
reconstructed labeling has the length of the mask, every masked-in
frame `i` receives `argmax` of the posterior row of its rank among the
masked-in frames plus `2`, and every masked-out frame receives `0`. -/
theorem claim_C6 (mask : List Bool) (q : List (List ℚ))
    (hq : q.length = mask.count true) :
    (reconstruct mask q).length = mask.length ∧
    ∀ i < mask.length,
      (mask.getD i false = true →
        (reconstruct mask q).getD i 0 =
          (argmax (q.getD ((mask.take i).count true) []) : ℤ) + 2) ∧
      (mask.getD i false = false → (reconstruct mask q).getD i 0 = 0) := by
  induction mask generalizing q with
  | nil =>
    refine ⟨rfl, ?_⟩
    intro i hi
    exact absurd hi (by simp)
  | cons b ms ih =>
    cases b with
    | true =>
      cases q with
      | nil => simp [List.count_cons] at hq
      | cons r rs =>
        have hq2 : rs.length = ms.count true := by
          simpa [List.count_cons] using hq
        have h := ih rs hq2
        refine ⟨by simpa [reconstruct] using h.1, ?_⟩
        intro i hi
        cases i with
        | zero => simp [reconstruct]
        | succ j =>
          have hj : j < ms.length := by simpa using hi
          have h2 := h.2 j hj
          constructor
          · intro ht
            have := h2.1 (by simpa using ht)
            simpa [reconstruct, List.count_cons] using this
          · intro hf
            have := h2.2 (by simpa using hf)
            simpa [reconstruct, List.count_cons] using this
    | false =>
      have hq2 : q.length = ms.count true := by
        simpa [List.count_cons] using hq
      have h := ih q hq2
      refine ⟨by simpa [reconstruct] using h.1, ?_⟩
      intro i hi
      cases i with
      | zero => simp [reconstruct]
      | succ j =>
        have hj : j < ms.length := by simpa using hi
        have h2 := h.2 j hj
        constructor
        · intro ht
          have := h2.1 (by simpa using ht)
          simpa [reconstruct, List.count_cons] using this
        · intro hf
          have := h2.2 (by simpa using hf)
          simpa [reconstruct, List.count_cons] using this

/-- Witness for C6: mask `[true, false, true]` with posterior rows
`[1, 0]` and `[0, 1]`: frame 2 is the second masked-in frame, its row is
`[0, 1]` whose argmax is `1`, so frame 2 gets label `3`. -/
theorem claim_C6_witness :
    (reconstruct [true, false, true] [[(1 : ℚ), 0], [0, 1]]).getD 2 0 =
      (argmax ([[(1 : ℚ), 0], [0, 1]].getD
        (([true, false, true].take 2).count true) []) : ℤ) + 2 :=
  ((claim_C6 [true, false, true] [[(1 : ℚ), 0], [0, 1]] (by decide)).2
    2 (by decide)).1 (by decide)

/-! ## C7: first-appearance speaker numbering -/

theorem lookup_isSome_iff (dict : List (String × ℤ)) (s : String) :
    (dict.lookup s).isSome ↔ s ∈ dict.map Prod.fst := by
  induction dict with
  | nil => simp [List.lookup]
  | cons p rest ih =>
    by_cases h : s = p.1
    · rw [List.lookup, beq_iff_eq.mpr h]
      simp [h]
    · rw [List.lookup, beq_eq_false_iff_ne.mpr h]
      simp [h, ih]

/-- The fold `buildSpeakerDictAux` appends, in first-appearance order, one entry
per speaker not already present, with values `c + 2, c + 3, …`. -/
theorem buildSpeakerDictAux_eq (segs : List Segment) :
    ∀ (dict : List (String × ℤ)) (c : ℤ),
    buildSpeakerDictAux dict c segs =
      dict ++ enumVals c
        (firstAppearAux (dict.map Prod.fst) (segs.map Segment.speaker_id)) := by
  induction segs with
  | nil => intro dict c; simp [buildSpeakerDictAux, firstAppearAux, enumVals]
  | cons seg rest ih =>
    intro dict c
    by_cases hm : seg.speaker_id ∈ dict.map Prod.fst
    · rw [buildSpeakerDictAux, if_pos ((lookup_isSome_iff dict _).mpr hm)]
      rw [ih dict c]
      rw [List.map_cons, firstAppearAux, if_pos (List.elem_iff.mpr hm)]
    · rw [buildSpeakerDictAux,
        if_neg (fun hs => hm ((lookup_isSome_iff dict _).mp hs))]
      rw [ih (dict ++ [(seg.speaker_id, c + 2)]) (c + 1)]
      rw [List.map_cons, firstAppearAux,
        if_neg (fun hc => hm (List.elem_iff.mp hc))]
      rw [enumVals, List.map_append]
      simp only [List.map_cons, List.map_nil]
      rw [List.append_assoc]
      rfl

theorem buildSpeakerDict_eq (segs : List Segment) :
    buildSpeakerDict segs =
      enumVals 0 (firstAppear (segs.map Segment.speaker_id)) := by
  rw [buildSpeakerDict, buildSpeakerDictAux_eq]
  rfl

theorem mem_firstAppearAux_not_seen :
    ∀ (l seen : List String) (x : String),
      x ∈ firstAppearAux seen l → x ∉ seen := by
  intro l
  induction l with
  | nil => intro seen x hx; simp [firstAppearAux] at hx
  | cons y ys ih =>
    intro seen x hx
    rw [firstAppearAux] at hx
    by_cases h : y ∈ seen
    · rw [if_pos (List.elem_iff.mpr h)] at hx
      exact ih seen x hx
    · rw [if_neg (fun hc => h (List.elem_iff.mp hc))] at hx
      rcases List.mem_cons.mp hx with h1 | h2
      · subst h1; exact h
      · have := ih (seen ++ [y]) x h2
        intro hc
        exact this (List.mem_append_left _ hc)

theorem firstAppearAux_nodup :
    ∀ (l seen : List String), (firstAppearAux seen l).Nodup := by
  intro l
  induction l with
  | nil => intro seen; simp [firstAppearAux]
  | cons y ys ih =>
    intro seen
    rw [firstAppearAux]
    by_cases h : y ∈ seen
    · rw [if_pos (List.elem_iff.mpr h)]; exact ih seen
    · rw [if_neg (fun hc => h (List.elem_iff.mp hc))]
      refine List.nodup_cons.mpr ⟨?_, ih (seen ++ [y])⟩
      intro hy
      have := mem_firstAppearAux_not_seen ys (seen ++ [y]) y hy
      exact this (by simp)

theorem mem_firstAppearAux_of_mem :
    ∀ (l seen : List String) (s : String),
      s ∈ l → s ∉ seen → s ∈ firstAppearAux seen l := by
  intro l
  induction l with
  | nil => intro seen s hs; simp at hs
  | cons y ys ih =>
    intro seen s hs hns
    rw [firstAppearAux]
    by_cases h : y ∈ seen
    · rw [if_pos (List.elem_iff.mpr h)]
      rcases List.mem_cons.mp hs with h1 | h2
      · subst h1; exact absurd h hns
      · exact ih seen s h2 hns
    · rw [if_neg (fun hc => h (List.elem_iff.mp hc))]
      rcases List.mem_cons.mp hs with h1 | h2
      · subst h1; exact List.mem_cons_self _ _
      · by_cases hsy : s = y
        · subst hsy; exact List.mem_cons_self _ _
        · refine List.mem_cons_of_mem _ (ih (seen ++ [y]) s h2 ?_)
          intro hc
          rcases List.mem_append.mp hc with hc1 | hc2
          · exact hns hc1
          · exact hsy (List.mem_singleton.mp hc2)

theorem enumVals_lookup_getD :
    ∀ (l : List String) (c : ℤ) (k : ℕ), k < l.length → l.Nodup →
      (enumVals c l).lookup (l.getD k "") = some (c + 2 + k) := by
  intro l
  induction l with
  | nil => intro c k hk _; exact absurd hk (by simp)
  | cons x xs ih =>
    intro c k hk hnd
    cases k with
    | zero =>
      rw [enumVals, List.getD_cons_zero, List.lookup, beq_self_eq_true]
      norm_num
    | succ j =>
      have hj : j < xs.length := by simpa using hk
      have hx : x ∉ xs := (List.nodup_cons.mp hnd).1
      have hmem : xs.getD j "" ∈ xs := by
        rw [List.getD_eq_getElem xs "" hj]
        exact List.getElem_mem hj
      have hne : xs.getD j "" ≠ x := fun hh => hx (hh ▸ hmem)
      rw [enumVals, List.getD_cons_succ, List.lookup,
        beq_eq_false_iff_ne.mpr hne]
      rw [ih (c + 1) j hj (List.nodup_cons.mp hnd).2]
      push_cast
      ring_nf

theorem enumVals_lookup_bounds :
    ∀ (l : List String) (c : ℤ) (s : String) (v : ℤ),
      (enumVals c l).lookup s = some v → c + 2 ≤ v ∧ v ≤ c + 1 + l.length := by
  intro l
  induction l with
  | nil => intro c s v hv; simp [enumVals, List.lookup] at hv
  | cons x xs ih =>
    intro c s v hv
    rw [enumVals] at hv
    by_cases h : s = x
    · rw [List.lookup, beq_iff_eq.mpr h] at hv
      have hv2 : v = c + 2 := by simpa using hv.symm
      subst hv2
      refine ⟨le_refl _, ?_⟩
      simp only [List.length_cons]
      push_cast
      omega
    · rw [List.lookup, beq_eq_false_iff_ne.mpr h] at hv
      have := ih (c + 1) s v hv
      simp only [List.length_cons]
      push_cast
      push_cast at this
      omega

theorem enumVals_lookup_isSome_of_mem :
    ∀ (l : List String) (c : ℤ) (s : String),
      s ∈ l → ∃ v, (enumVals c l).lookup s = some v := by
  intro l
  induction l with
  | nil => intro c s hs; simp at hs
  | cons x xs ih =>
    intro c s hs
    rw [enumVals]
    by_cases h : s = x
    · exact ⟨c + 2, by rw [List.lookup, beq_iff_eq.mpr h]⟩
    · rcases List.mem_cons.mp hs with h1 | h2
      · exact absurd h1 h
      · obtain ⟨v, hv⟩ := ih (c + 1) s h2
        exact ⟨v, by rw [List.lookup, beq_eq_false_iff_ne.mpr h]; exact hv⟩

/-- C7: the `k`-th distinct speaker id in order of first appearance in
the segmentation (`k` 0-indexed) is mapped by `speaker_dict` to the
integer `k + 2`, regardless of the alphabetic order of the ids. -/
theorem claim_C7 (segs : List Segment) (k : ℕ)
    (hk : k < (firstAppear (segs.map Segment.speaker_id)).length) :
    (buildSpeakerDict segs).lookup
        ((firstAppear (segs.map Segment.speaker_id)).getD k "") =
      some ((k : ℤ) + 2) := by
  rw [buildSpeakerDict_eq]
  have h := enumVals_lookup_getD (firstAppear (segs.map Segment.speaker_id))
    0 k hk (firstAppearAux_nodup _ _)
  rw [h]
  congr 1
  ring

/-- Witness for C7: in `demoSegsC7` the speakers appear in the order
"B", "A"; the second one ("A", index 1) receives the integer 3, even
though "A" precedes "B" alphabetically. -/
theorem claim_C7_witness :
    (buildSpeakerDict demoSegsC7).lookup
        ((firstAppear (demoSegsC7.map Segment.speaker_id)).getD 1 "") =
      some ((1 : ℤ) + 2) :=
  claim_C7 demoSegsC7 1 (by decide)

/-! ## C8: shape and range invariants of `get_labels` -/

theorem applySegFrom_length (lab : ℤ) (a b : ℕ) :
    ∀ (ref : List ℤ) (i : ℕ), (applySegFrom lab a b i ref).length = ref.length := by
  intro ref
  induction ref with
  | nil => intro i; rfl
  | cons cur rest ih => intro i; simp [applySegFrom, ih]

theorem applySegFrom_getD (lab : ℤ) (a b : ℕ) :
    ∀ (ref : List ℤ) (i j : ℕ), j < ref.length →
      (applySegFrom lab a b i ref).getD j 0 =
        if a ≤ i + j ∧ i + j ≤ b then updateFrame (ref.getD j 0) lab
        else ref.getD j 0 := by
  intro ref
  induction ref with
  | nil => intro i j hj; simp at hj
  | cons cur rest ih =>
    intro i j hj
    cases j with
    | zero => simp [applySegFrom]
    | succ j2 =>
      have hj2 : j2 < rest.length := by simpa using hj
      have := ih (i + 1) j2 hj2
      simp only [applySegFrom, List.getD_cons_succ]
      rw [this]
      have harith : i + 1 + j2 = i + (j2 + 1) := by omega
      rw [harith]

theorem getD_replicate_zero : ∀ (n j : ℕ), (List.replicate n (0 : ℤ)).getD j 0 = 0 := by
  intro n
  induction n with
  | zero => intro j; simp
  | succ m ih =>
    intro j
    cases j with
    | zero => simp [List.replicate]
    | succ j2 =>
      rw [List.replicate_succ, List.getD_cons_succ]
      exact ih j2

theorem applySeg_length (lab : ℤ) (a b : ℕ) (ref : List ℤ) :
    (applySeg ref lab a b).length = ref.length :=
  applySegFrom_length lab a b ref 0

theorem applySeg_getD (lab : ℤ) (a b : ℕ) (ref : List ℤ) (j : ℕ)
    (hj : j < ref.length) :
    (applySeg ref lab a b).getD j 0 =
      if a ≤ j ∧ j ≤ b then updateFrame (ref.getD j 0) lab
      else ref.getD j 0 := by
  have h := applySegFrom_getD lab a b ref 0 j hj
  simpa [applySeg] using h

/-- Range invariant of the labeling fold: starting from an array whose
entries are silence, overlap, or a speaker label in `[2, S + 1]`, and
applying segments whose dictionary labels lie in `[2, S + 1]`, every
entry stays in `{0, 1} ∪ [2, S + 1]` and the length is preserved. -/
theorem foldl_applySeg_inv (dict : List (String × ℤ)) (S : ℤ) :
    ∀ (segs : List Segment) (ref : List ℤ),
    (∀ seg ∈ segs, ∃ v, dict.lookup seg.speaker_id = some v ∧ 2 ≤ v ∧ v ≤ S + 1) →
    (∀ j < ref.length, ref.getD j 0 = 0 ∨ ref.getD j 0 = 1 ∨
        (2 ≤ ref.getD j 0 ∧ ref.getD j 0 ≤ S + 1)) →
    (segs.foldl
      (fun r seg => applySeg r ((dict.lookup seg.speaker_id).getD 0) seg.onset seg.offset)
      ref).length = ref.length ∧
    ∀ j < ref.length,
      (segs.foldl
        (fun r seg => applySeg r ((dict.lookup seg.speaker_id).getD 0) seg.onset seg.offset)
        ref).getD j 0 = 0 ∨
      (segs.foldl
        (fun r seg => applySeg r ((dict.lookup seg.speaker_id).getD 0) seg.onset seg.offset)
        ref).getD j 0 = 1 ∨
      (2 ≤ (segs.foldl
        (fun r seg => applySeg r ((dict.lookup seg.speaker_id).getD 0) seg.onset seg.offset)
        ref).getD j 0 ∧
       (segs.foldl
        (fun r seg => applySeg r ((dict.lookup seg.speaker_id).getD 0) seg.onset seg.offset)
        ref).getD j 0 ≤ S + 1) := by
  intro segs
  induction segs with
  | nil => intro ref _ hre; exact ⟨rfl, hre⟩
  | cons seg rest ih =>
    intro ref hseg hre
    obtain ⟨v, hv, hv2, hvS⟩ := hseg seg (List.mem_cons_self _ _)
    have hlen : (applySeg ref ((dict.lookup seg.speaker_id).getD 0)
        seg.onset seg.offset).length = ref.length :=
      applySeg_length _ _ _ ref
    have hptw : ∀ j < ref.length,
        (applySeg ref ((dict.lookup seg.speaker_id).getD 0)
          seg.onset seg.offset).getD j 0 = 0 ∨
        (applySeg ref ((dict.lookup seg.speaker_id).getD 0)
          seg.onset seg.offset).getD j 0 = 1 ∨
        (2 ≤ (applySeg ref ((dict.lookup seg.speaker_id).getD 0)
          seg.onset seg.offset).getD j 0 ∧
         (applySeg ref ((dict.lookup seg.speaker_id).getD 0)
          seg.onset seg.offset).getD j 0 ≤ S + 1) := by
      intro j hj
      rw [applySeg_getD ((dict.lookup seg.speaker_id).getD 0)
        seg.onset seg.offset ref j hj]
      by_cases hcov : seg.onset ≤ j ∧ j ≤ seg.offset
      · rw [if_pos hcov, hv]
        simp only [Option.getD_some]
        rcases hre j hj with h0 | h1 | h2 <;>
          · unfold updateFrame
            split_ifs <;> omega
      · rw [if_neg hcov]
        exact hre j hj
    have hrest := ih
      (applySeg ref ((dict.lookup seg.speaker_id).getD 0) seg.onset seg.offset)
      (fun s hs => hseg s (List.mem_cons_of_mem _ hs))
      (fun j hj => hptw j (by omega))
    rw [List.foldl_cons]
    refine ⟨hrest.1.trans hlen, ?_⟩
    intro j hj
    exact hrest.2 j (by omega)

/-- C8: when every segment's frame range lies inside `[0, n)`, the
labeling produced by `get_labels` has length exactly `n` and every entry
is `0`, `1`, or a speaker label in `[2, S + 1]`, where `S` is the number
of distinct speakers of the segmentation. -/
theorem claim_C8 (segs : List Segment) (n : ℕ)
    (hin : ∀ seg ∈ segs, seg.offset < n) :
    (get_labels segs n).length = n ∧
    ∀ i < n, (get_labels segs n).getD i 0 = 0 ∨
      (get_labels segs n).getD i 0 = 1 ∨
      (2 ≤ (get_labels segs n).getD i 0 ∧
       (get_labels segs n).getD i 0 ≤
         ((firstAppear (segs.map Segment.speaker_id)).length : ℤ) + 1) := by
  have hdict : ∀ seg ∈ segs, ∃ v,
      (buildSpeakerDict segs).lookup seg.speaker_id = some v ∧
      2 ≤ v ∧ v ≤ ((firstAppear (segs.map Segment.speaker_id)).length : ℤ) + 1 := by
    intro seg hs
    have hmem : seg.speaker_id ∈ firstAppear (segs.map Segment.speaker_id) :=
      mem_firstAppearAux_of_mem _ [] _
        (List.mem_map_of_mem Segment.speaker_id hs) (by simp)
    obtain ⟨v, hv⟩ := enumVals_lookup_isSome_of_mem
      (firstAppear (segs.map Segment.speaker_id)) 0 seg.speaker_id hmem
    have hb := enumVals_lookup_bounds
      (firstAppear (segs.map Segment.speaker_id)) 0 seg.speaker_id v hv
    refine ⟨v, ?_, by omega, by omega⟩
    rw [buildSpeakerDict_eq]
    exact hv
  have h := foldl_applySeg_inv (buildSpeakerDict segs)
    ((firstAppear (segs.map Segment.speaker_id)).length : ℤ)
    segs (List.replicate n 0) hdict
    (by intro j hj; left; exact getD_replicate_zero n j)
  have hn : (List.replicate n (0 : ℤ)).length = n := List.length_replicate n 0
  rw [get_labels]
  refine ⟨by rw [h.1, hn], ?_⟩
  intro i hi
  exact h.2 i (by rw [hn]; omega)

/-- Witness for C8: the three-segment demo over 100 frames yields a
100-frame labeling. -/
theorem claim_C8_witness : (get_labels demoSegsC8 100).length = 100 :=
  (claim_C8 demoSegsC8 100 (by decide)).1

/-! ## Run-length structure of the changepoint computation -/

theorem cpInds_eq_cpFrom (labels : List ℤ) : cpInds labels = cpFrom (-999) labels := rfl

theorem runPairs_eq_pairsOf (labels : List ℤ) :
    runPairs labels = pairsOf (cpInds labels) := rfl

theorem cpFrom_cons (pre x : ℤ) (labels : List ℤ) :
    cpFrom pre (x :: labels) =
      (if x ≠ pre then [0] else []) ++ (cpFrom x labels).map (fun v => v + 1) := by
  have hrest : (List.filter
      (fun i => decide ((pre :: (x :: labels ++ [-999])).getD (i + 1) 0 ≠
                        (pre :: (x :: labels ++ [-999])).getD i 0))
      ((List.range (labels.length + 1)).map Nat.succ)) =
      ((List.range (labels.length + 1)).filter
        (fun i => decide ((x :: (labels ++ [-999])).getD (i + 1) 0 ≠
                          (x :: (labels ++ [-999])).getD i 0))).map (fun v => v + 1) := by
    rw [List.filter_map]
    have hpred := List.filter_congr (l := List.range (labels.length + 1))
      (p := (fun i => decide ((pre :: (x :: labels ++ [-999])).getD (i + 1) 0 ≠
                        (pre :: (x :: labels ++ [-999])).getD i 0)) ∘ Nat.succ)
      (q := fun i => decide ((x :: (labels ++ [-999])).getD (i + 1) 0 ≠
                          (x :: (labels ++ [-999])).getD i 0))
      (fun a _ => by simp [Function.comp, List.getD_cons_succ])
    rw [hpred]
  rw [cpFrom, cpFrom]
  rw [show (x :: labels).length + 1 = (labels.length + 1) + 1 by simp]
  rw [List.range_succ_eq_map]
  rcases eq_or_ne x pre with hxp | hxp
  · rw [List.filter_cons_of_neg (by simp [hxp])]
    rw [if_neg (by simpa using hxp)]
    simpa using hrest
  · rw [List.filter_cons_of_pos (by simp [List.getD_cons_succ, hxp])]
    rw [if_pos hxp]
    rw [show ((x :: labels) ++ [-999]) = x :: (labels ++ [-999]) by simp] at *
    rw [hrest]
    rfl

theorem cpFrom_nil (pre : ℤ) :
    cpFrom pre [] = if (-999 : ℤ) ≠ pre then [0] else [] := by
  rw [cpFrom]
  simp only [List.length_nil, List.nil_append]
  rw [show List.range (0 + 1) = [0] from rfl]
  rcases eq_or_ne (-999 : ℤ) pre with h | h
  · rw [if_neg (by simpa using h)]
    rw [List.filter_cons_of_neg (by simp [h])]
    rfl
  · rw [if_pos h, List.filter_cons_of_pos (by simp [h])]
    rfl

theorem cpFrom_replicate_append (x : ℤ) :
    ∀ (m : ℕ) (rest : List ℤ),
    cpFrom x (List.replicate m x ++ rest) = (cpFrom x rest).map (fun v => v + m) := by
  intro m
  induction m with
  | zero =>
    intro rest
    simp
  | succ m2 ih =>
    intro rest
    rw [List.replicate_succ, List.cons_append, cpFrom_cons]
    rw [if_neg (by simp)]
    rw [ih rest]
    rw [List.nil_append, List.map_map]
    apply List.map_congr_left
    intro a _
    simp only [Function.comp]
    omega

theorem pairsOf_cons_cons (a b : ℕ) (t : List ℕ) :
    pairsOf (a :: b :: t) = (a, b - 1) :: pairsOf (b :: t) := rfl

theorem pairsOf_shift (c : List ℕ) (k : ℕ) (h1 : ∀ v ∈ c.drop 1, 1 ≤ v) :
    pairsOf (c.map (fun v => v + k)) =
      (pairsOf c).map (fun be => (be.1 + k, be.2 + k)) := by
  rw [pairsOf, pairsOf]
  rw [← List.map_dropLast, ← List.map_drop, List.map_map]
  have h2 : (c.drop 1).map ((fun v => v - 1) ∘ (fun v => v + k)) =
      ((c.drop 1).map (fun v => v - 1)).map (fun v => v + k) := by
    rw [List.map_map]
    apply List.map_congr_left
    intro a ha
    have := h1 a ha
    simp only [Function.comp]
    omega
  rw [h2]
  rw [List.zip_map]
  apply List.map_congr_left
  intro a _
  rfl

theorem runPairs_replicate (x : ℤ) (hx : 0 ≤ x) (m : ℕ) :
    runPairs (List.replicate (m + 1) x) = [(0, m)] := by
  have h1 : cpInds (List.replicate (m + 1) x) = [0, m + 1] := by
    rw [cpInds_eq_cpFrom, List.replicate_succ, cpFrom_cons]
    rw [if_pos (by intro hcon; omega)]
    rw [show List.replicate m x = List.replicate m x ++ [] by simp]
    rw [cpFrom_replicate_append, cpFrom_nil]
    rw [if_pos (by intro hcon; omega)]
    simp
  rw [runPairs_eq_pairsOf, h1]
  rfl

theorem runPairs_replicate_append (x y : ℤ) (hx : 0 ≤ x) (hy : 0 ≤ y)
    (hyx : y ≠ x) (m : ℕ) (ys : List ℤ) :
    runPairs (List.replicate (m + 1) x ++ (y :: ys)) =
      (0, m) :: (runPairs (y :: ys)).map
        (fun be => (be.1 + (m + 1), be.2 + (m + 1))) := by
  have hxy : cpFrom x (y :: ys) = 0 :: (cpFrom y ys).map (fun v => v + 1) := by
    rw [cpFrom_cons, if_pos hyx]
    rfl
  have hcy : cpInds (y :: ys) = 0 :: (cpFrom y ys).map (fun v => v + 1) := by
    rw [cpInds_eq_cpFrom, cpFrom_cons, if_pos (by intro hcon; omega)]
    rfl
  have h1 : cpInds (List.replicate (m + 1) x ++ (y :: ys)) =
      0 :: ((0 :: (cpFrom y ys).map (fun v => v + 1)).map (fun v => v + (m + 1))) := by
    rw [cpInds_eq_cpFrom, List.replicate_succ, List.cons_append, cpFrom_cons]
    rw [if_pos (by intro hcon; omega)]
    rw [cpFrom_replicate_append, hxy]
    rw [List.singleton_append, List.map_map]
    rfl
  rw [runPairs_eq_pairsOf, h1]
  rw [List.map_cons]
  rw [pairsOf_cons_cons]
  have hdrop : ∀ v ∈ (0 :: (cpFrom y ys).map (fun v => v + 1)).drop 1, 1 ≤ v := by
    intro v hv
    simp only [List.drop_one, List.tail_cons] at hv
    obtain ⟨w, _, hw2⟩ := List.mem_map.mp hv
    omega
  have h2 : ((0 : ℕ) + (m + 1)) :: ((cpFrom y ys).map (fun v => v + 1)).map
      (fun v => v + (m + 1)) =
      (0 :: (cpFrom y ys).map (fun v => v + 1)).map (fun v => v + (m + 1)) := rfl
  rw [h2, pairsOf_shift _ _ hdrop, ← hcy]
  rw [show (0 : ℕ) + (m + 1) - 1 = m by omega]
  rfl

/-! ## Tiling: `labeledRuns` lists the maximal constant runs -/

theorem getD_replicate_val (v : ℤ) :
    ∀ (n j : ℕ), j < n → (List.replicate n v).getD j 0 = v := by
  intro n
  induction n with
  | zero => intro j hj; omega
  | succ m ih =>
    intro j hj
    cases j with
    | zero => simp [List.replicate]
    | succ j2 =>
      rw [List.replicate_succ, List.getD_cons_succ]
      exact ih j2 (by omega)

theorem tiles_shift (pre rest : List ℤ) (runs : List (ℕ × ℕ × ℤ)) (lo : ℕ)
    (ht : Tiles rest runs lo) :
    Tiles (pre ++ rest)
      (runs.map (fun r => (r.1 + pre.length, r.2.1 + pre.length, r.2.2)))
      (lo + pre.length) := by
  induction ht with
  | nil lo2 h =>
    exact Tiles.nil _ (by rw [List.length_append, h]; omega)
  | cons b e l rs lo2 hb hbe hen hconst hdiff htail ih =>
    rw [List.map_cons]
    show Tiles (pre ++ rest)
      ((b + pre.length, e + pre.length, l) ::
        rs.map (fun r => (r.1 + pre.length, r.2.1 + pre.length, r.2.2)))
      (lo2 + pre.length)
    refine Tiles.cons (b + pre.length) (e + pre.length) l _ (lo2 + pre.length)
      (by omega) (by omega) (by rw [List.length_append]; omega) ?_ ?_ ?_
    · intro i hi1 hi2
      have hik : pre.length ≤ i := by omega
      rw [List.getD_append_right pre rest 0 i hik]
      exact hconst (i - pre.length) (by omega) (by omega)
    · intro b2 e2 l2 rest2 hmap
      cases rs with
      | nil => simp at hmap
      | cons r2 rs2 =>
        rw [List.map_cons] at hmap
        have hl2 : r2.2.2 = l2 := congrArg (fun t => t.headI.2.2) hmap
        have := hdiff r2.1 r2.2.1 r2.2.2 rs2 rfl
        rw [hl2] at this
        exact this
    · rw [show e + pre.length + 1 = e + 1 + pre.length by omega]
      exact ih

theorem run_block_decomp (x : ℤ) (xs : List ℤ) :
    ∃ m rest, x :: xs = List.replicate (m + 1) x ++ rest ∧
      (rest = [] ∨ ∃ y ys, rest = y :: ys ∧ y ≠ x) := by
  refine ⟨(xs.takeWhile (fun v => v == x)).length,
    xs.dropWhile (fun v => v == x), ?_, ?_⟩
  · have h1 : xs.takeWhile (fun v => v == x) =
        List.replicate (xs.takeWhile (fun v => v == x)).length x :=
      List.eq_replicate_of_mem
        (fun b hb => by simpa using List.mem_takeWhile_imp hb)
    conv_lhs => rw [show x :: xs =
      x :: (xs.takeWhile (fun v => v == x) ++ xs.dropWhile (fun v => v == x))
      by rw [List.takeWhile_append_dropWhile]]
    rw [List.replicate_succ, List.cons_append]
    rw [← h1]
  · cases hd : xs.dropWhile (fun v => v == x) with
    | nil => left; rfl
    | cons y ys =>
      right
      refine ⟨y, ys, rfl, ?_⟩
      have hnp := List.head?_dropWhile_not (fun v => v == x) xs
      rw [hd] at hnp
      simpa using hnp

theorem tiles_labeledRuns_aux :
    ∀ (N : ℕ) (labels : List ℤ), labels.length ≤ N → (∀ l ∈ labels, 0 ≤ l) →
    Tiles labels (labeledRuns labels) 0 := by
  intro N
  induction N with
  | zero =>
    intro labels hlen hpos
    have hnil : labels = [] := List.length_eq_zero.mp (by omega)
    subst hnil
    rw [show labeledRuns [] = [] from rfl]
    exact Tiles.nil 0 rfl
  | succ N2 ih =>
    intro labels hlen hpos
    cases labels with
    | nil =>
      rw [show labeledRuns [] = [] from rfl]
      exact Tiles.nil 0 rfl
    | cons x xs =>
      have hx : 0 ≤ x := hpos x (List.mem_cons_self _ _)
      obtain ⟨m, rest, hdec, hcase⟩ := run_block_decomp x xs
      rcases hcase with hrnil | ⟨y, ys, hrcons, hyx⟩
      · subst hrnil
        rw [List.append_nil] at hdec
        rw [hdec]
        rw [labeledRuns, runPairs_replicate x hx m, List.map_cons, List.map_nil]
        have hg : (List.replicate (m + 1) x).getD 0 0 = x :=
          getD_replicate_val x (m + 1) 0 (by omega)
        show Tiles _ ((0, m, (List.replicate (m + 1) x).getD 0 0) :: []) 0
        rw [hg]
        refine Tiles.cons 0 m x [] 0 rfl (by omega)
          (by rw [List.length_replicate]; omega) ?_ ?_ ?_
        · intro i hi1 hi2
          exact getD_replicate_val x (m + 1) i (by omega)
        · intro b2 e2 l2 rest2 hcon
          simp at hcon
        · exact Tiles.nil (m + 1) (by rw [List.length_replicate])
      · subst hrcons
        rw [hdec]
        have hy : 0 ≤ y := by
          apply hpos
          rw [hdec]
          exact List.mem_append_right _ (List.mem_cons_self _ _)
        have hlen2 : (y :: ys).length ≤ N2 := by
          have hcl := congrArg List.length hdec
          simp only [List.length_cons, List.length_append,
            List.length_replicate] at hcl
          simp only [List.length_cons] at hlen ⊢
          omega
        have hposr : ∀ l ∈ y :: ys, 0 ≤ l := by
          intro l hl
          apply hpos
          rw [hdec]
          exact List.mem_append_right _ hl
        have htr := ih (y :: ys) hlen2 hposr
        rw [labeledRuns, runPairs_replicate_append x y hx hy hyx m ys,
          List.map_cons]
        have htail_eq : ((runPairs (y :: ys)).map
            (fun be => (be.1 + (m + 1), be.2 + (m + 1)))).map
            (fun be => (be.1, be.2,
              (List.replicate (m + 1) x ++ (y :: ys)).getD be.1 0)) =
            (labeledRuns (y :: ys)).map
            (fun r => (r.1 + (m + 1), r.2.1 + (m + 1), r.2.2)) := by
          rw [labeledRuns, List.map_map, List.map_map]
          apply List.map_congr_left
          intro be _
          simp only [Function.comp, List.length_replicate]
          rw [List.getD_append_right _ _ _ _ (by rw [List.length_replicate]; omega)]
          rw [List.length_replicate]
          rw [show be.1 + (m + 1) - (m + 1) = be.1 by omega]
        rw [htail_eq]
        have hg0 : (List.replicate (m + 1) x ++ (y :: ys)).getD 0 0 = x := by
          rw [List.getD_append _ _ _ _ (by rw [List.length_replicate]; omega)]
          exact getD_replicate_val x (m + 1) 0 (by omega)
        show Tiles _ ((0, m,
          (List.replicate (m + 1) x ++ (y :: ys)).getD 0 0) :: _) 0
        rw [hg0]
        refine Tiles.cons 0 m x _ 0 rfl (by omega)
          (by rw [List.length_append, List.length_replicate]; omega) ?_ ?_ ?_
        · intro i hi1 hi2
          rw [List.getD_append _ _ _ _ (by rw [List.length_replicate]; omega)]
          exact getD_replicate_val x (m + 1) i (by omega)
        · intro b2 e2 l2 rest2 hcon
          cases hLR : labeledRuns (y :: ys) with
          | nil =>
            rw [hLR] at hcon
            simp at hcon
          | cons r0 rs0 =>
            rw [hLR, List.map_cons] at hcon
            have hl2 : r0.2.2 = l2 := congrArg (fun t => t.headI.2.2) hcon
            rw [hLR] at htr
            have hr00 : r0.1 = 0 ∧ (∀ i, r0.1 ≤ i → i ≤ r0.2.1 →
                (y :: ys).getD i 0 = r0.2.2) := by
              cases htr with
              | cons b e l rs lo2 hb hbe hen hconst hdiff htail =>
                exact ⟨hb, hconst⟩
            have hly : r0.2.2 = y := by
              have := hr00.2 0 (by omega) (by omega)
              simpa using this.symm
            rw [← hl2, hly]
            exact hyx
        · have hsh := tiles_shift (List.replicate (m + 1) x) (y :: ys)
            (labeledRuns (y :: ys)) 0 htr
          simp only [List.length_replicate, Nat.zero_add] at hsh
          exact hsh

theorem tiles_labeledRuns (labels : List ℤ) (hpos : ∀ l ∈ labels, 0 ≤ l) :
    Tiles labels (labeledRuns labels) 0 :=
  tiles_labeledRuns_aux labels.length labels (le_refl _) hpos

/-! ## From the tiling to maximal runs -/

theorem tiles_run_facts (labels : List ℤ) (runs : List (ℕ × ℕ × ℤ)) (lo : ℕ)
    (ht : Tiles labels runs lo) :
    ∀ r ∈ runs, lo ≤ r.1 ∧ r.1 ≤ r.2.1 ∧ r.2.1 < labels.length ∧
      (∀ i, r.1 ≤ i → i ≤ r.2.1 → labels.getD i 0 = r.2.2) := by
  induction ht with
  | nil => intro r hr; simp at hr
  | cons b e l rs lo2 hb hbe hen hconst hdiff htail ih =>
    intro r hr
    rcases List.mem_cons.mp hr with h1 | h2
    · subst h1; exact ⟨by omega, hbe, hen, hconst⟩
    · obtain ⟨ha, hbc, hc, hd⟩ := ih r h2
      exact ⟨by omega, hbc, hc, hd⟩

theorem tiles_cover (labels : List ℤ) (runs : List (ℕ × ℕ × ℤ)) (lo : ℕ)
    (ht : Tiles labels runs lo) :
    ∀ i, lo ≤ i → i < labels.length → ∃ r ∈ runs, r.1 ≤ i ∧ i ≤ r.2.1 := by
  induction ht with
  | nil lo2 h => intro i hi1 hi2; omega
  | cons b e l rs lo2 hb hbe hen hconst hdiff htail ih =>
    intro i hi1 hi2
    by_cases hie : i ≤ e
    · exact ⟨(b, e, l), List.mem_cons_self _ _, by omega, hie⟩
    · obtain ⟨r, hr, hr1, hr2⟩ := ih i (by omega) hi2
      exact ⟨r, List.mem_cons_of_mem _ hr, hr1, hr2⟩

theorem tiles_pairwise_lt (labels : List ℤ) (runs : List (ℕ × ℕ × ℤ)) (lo : ℕ)
    (ht : Tiles labels runs lo) :
    List.Pairwise (fun r s : ℕ × ℕ × ℤ => r.1 < s.1) runs := by
  induction ht with
  | nil => exact List.Pairwise.nil
  | cons b e l rs lo2 hb hbe hen hconst hdiff htail ih =>
    refine List.pairwise_cons.mpr ⟨?_, ih⟩
    intro r hr
    have h1 := (tiles_run_facts labels rs (e + 1) htail r hr).1
    show b < r.1
    omega

theorem tiles_cons_start (labels : List ℤ) (r2 : ℕ × ℕ × ℤ)
    (rs2 : List (ℕ × ℕ × ℤ)) (lo : ℕ) (ht : Tiles labels (r2 :: rs2) lo) :
    r2.1 = lo ∧ (∀ i, r2.1 ≤ i → i ≤ r2.2.1 → labels.getD i 0 = r2.2.2) ∧
      r2.1 ≤ r2.2.1 ∧ r2.2.1 < labels.length := by
  cases ht with
  | cons b e l rs lo2 hb hbe hen hconst hdiff htail => exact ⟨hb, hconst, hbe, hen⟩

theorem tiles_maxrun (labels : List ℤ) (runs : List (ℕ × ℕ × ℤ)) (lo : ℕ)
    (ht : Tiles labels runs lo) :
    (∀ b2 e2 l2 rest2, runs = (b2, e2, l2) :: rest2 →
      (b2 = 0 ∨ labels.getD (b2 - 1) 0 ≠ l2)) →
    ∀ r ∈ runs, isMaxRun labels r.1 r.2.1 r.2.2 := by
  induction ht with
  | nil => intro _ r hr; simp at hr
  | cons b e l rs lo2 hb hbe hen hconst hdiff htail ih =>
    intro hleft r hr
    rcases List.mem_cons.mp hr with h1 | h2
    · subst h1
      refine ⟨hbe, hen, ?_, hleft b e l rs rfl, ?_⟩
      · intro i _ hi1 hi2; exact hconst i hi1 hi2
      · cases hrs : rs with
        | nil =>
          left
          rw [hrs] at htail
          cases htail with
          | nil _ h => exact h
        | cons r2 rs2 =>
          right
          rw [hrs] at htail hdiff
          obtain ⟨hstart, hconst2, _, _⟩ := tiles_cons_start labels r2 rs2 (e + 1) htail
          have hval : labels.getD (e + 1) 0 = r2.2.2 :=
            hconst2 (e + 1) (by omega) (by omega)
          have hne : r2.2.2 ≠ l := hdiff r2.1 r2.2.1 r2.2.2 rs2 rfl
          rw [hval]
          exact hne
    · apply ih ?_ r h2
      intro b2 e2 l2 rest2 hrs
      right
      rw [hrs] at htail hdiff
      obtain ⟨hstart, _, _, _⟩ := tiles_cons_start labels (b2, e2, l2) rest2 (e + 1) htail
      have hb2 : b2 = e + 1 := hstart
      have hge : labels.getD (b2 - 1) 0 = l := by
        rw [hb2]
        rw [show e + 1 - 1 = e by omega]
        exact hconst e hbe (by omega)
      rw [hge]
      have hne : l2 ≠ l := hdiff b2 e2 l2 rest2 rfl
      intro hcon
      exact hne hcon.symm

theorem labeledRuns_left_max (labels : List ℤ)
    (hpos : ∀ l ∈ labels, 0 ≤ l) :
    ∀ b2 e2 l2 rest2, labeledRuns labels = (b2, e2, l2) :: rest2 →
      (b2 = 0 ∨ labels.getD (b2 - 1) 0 ≠ l2) := by
  intro b2 e2 l2 rest2 heq
  left
  have ht := tiles_labeledRuns labels hpos
  rw [heq] at ht
  exact (tiles_cons_start labels (b2, e2, l2) rest2 0 ht).1

theorem labeledRuns_maxrun (labels : List ℤ) (hpos : ∀ l ∈ labels, 0 ≤ l) :
    ∀ r ∈ labeledRuns labels, isMaxRun labels r.1 r.2.1 r.2.2 :=
  tiles_maxrun labels (labeledRuns labels) 0 (tiles_labeledRuns labels hpos)
    (labeledRuns_left_max labels hpos)

theorem maxrun_mem_labeledRuns (labels : List ℤ)
    (hpos : ∀ l ∈ labels, 0 ≤ l) (b e : ℕ) (l : ℤ)
    (hmr : isMaxRun labels b e l) : (b, e, l) ∈ labeledRuns labels := by
  have ht := tiles_labeledRuns labels hpos
  obtain ⟨hbe, hen, hconst, hlmax, hrmax⟩ := hmr
  obtain ⟨r, hr, hr1, hr2⟩ := tiles_cover labels _ 0 ht b (by omega) (by omega)
  obtain ⟨b0, e0, l0⟩ := r
  have hmax0 := labeledRuns_maxrun labels hpos (b0, e0, l0) hr
  obtain ⟨hbe0, hen0, hconst0, hlmax0, hrmax0⟩ := hmax0
  simp only at hr1 hr2 hconst0 hlmax0 hrmax0 hbe0 hen0
  have hl0 : l0 = l := by
    have h1 := hconst0 b (by omega) hr1 hr2
    have h2 := hconst b (by omega) (le_refl b) hbe
    rw [h1] at h2
    exact h2
  have hb0 : b0 = b := by
    rcases Nat.lt_or_ge b0 b with hlt | hge
    · exfalso
      have hgb : labels.getD (b - 1) 0 = l0 :=
        hconst0 (b - 1) (by omega) (by omega) (by omega)
      rcases hlmax with hz | hne
      · omega
      · rw [hgb, hl0] at hne
        exact hne rfl
    · omega
  have he0 : e0 = e := by
    rcases Nat.lt_trichotomy e0 e with hlt | heq | hgt
    · exfalso
      have hv : labels.getD (e0 + 1) 0 = l :=
        hconst (e0 + 1) (by omega) (by omega) (by omega)
      rcases hrmax0 with hz | hne
      · omega
      · rw [hv, ← hl0] at hne
        exact hne rfl
    · exact heq
    · exfalso
      have hv : labels.getD (e + 1) 0 = l0 :=
        hconst0 (e + 1) (by omega) (by omega) (by omega)
      rcases hrmax with hz | hne
      · omega
      · rw [hv, hl0] at hne
        exact hne rfl
  rw [← hl0, ← hb0, ← he0]
  exact hr

/-! ## C5: the RTTM turn encoder emits one turn per speaker run -/

theorem count_filterMap_one {α : Type} [DecidableEq α] (F : ℕ × ℕ × ℤ → Option α) :
    ∀ (l : List (ℕ × ℕ × ℤ)), l.Nodup → ∀ (t : α) (r0 : ℕ × ℕ × ℤ),
    r0 ∈ l → F r0 = some t → (∀ r ∈ l, F r = some t → r = r0) →
    (l.filterMap F).count t = 1 := by
  intro l
  induction l with
  | nil => intro _ t r0 hmem; simp at hmem
  | cons a l2 ih =>
    intro hnd t r0 hmem hF huniq
    have hna : a ∉ l2 := (List.nodup_cons.mp hnd).1
    have hnd2 : l2.Nodup := (List.nodup_cons.mp hnd).2
    rcases List.mem_cons.mp hmem with h1 | h2
    · subst h1
      rw [List.filterMap_cons_some hF]
      rw [List.count_cons_self]
      have hzero : (l2.filterMap F).count t = 0 := by
        rw [List.count_eq_zero]
        intro hmem2
        obtain ⟨r, hrmem, hrF⟩ := List.mem_filterMap.mp hmem2
        have hr0 := huniq r (List.mem_cons_of_mem _ hrmem) hrF
        exact hna (hr0 ▸ hrmem)
      rw [hzero]
    · have hFa : F a ≠ some t := by
        intro hcon
        have ha0 := huniq a (List.mem_cons_self _ _) hcon
        exact hna (ha0 ▸ h2)
      cases hFa2 : F a with
      | none =>
        rw [List.filterMap_cons_none hFa2]
        exact ih hnd2 t r0 h2 hF (fun r hr => huniq r (List.mem_cons_of_mem _ hr))
      | some u =>
        rw [List.filterMap_cons_some hFa2]
        have hut : t ≠ u := fun hc => hFa (by rw [hFa2, hc])
        rw [List.count_cons_of_ne hut]
        exact ih hnd2 t r0 h2 hF (fun r hr => huniq r (List.mem_cons_of_mem _ hr))

theorem turnF_eq_some (stp : ℚ) (r : ℕ × ℕ × ℤ) (t : Turn)
    (h : turnF stp r = some t) :
    2 ≤ r.2.2 ∧ t = ⟨(r.1 : ℚ) * stp, ((r.2.1 - r.1 + 1 : ℕ) : ℚ) * stp, r.2.2⟩ := by
  rw [turnF] at h
  by_cases hlt : r.2.2 < 2
  · rw [if_pos hlt] at h
    exact absurd h (by simp)
  · rw [if_neg hlt] at h
    exact ⟨by omega, (Option.some.inj h).symm⟩

/-- C5: for every label array with nonnegative entries and positive
frame step, the turn encoder emits exactly one turn for each maximal
run of a constant label `≥ 2`, with `onset = run_start * step` and
`duration = run_length * step`; every emitted turn arises from such a
run (runs of labels `< 2` produce no turn); and the onsets are
non-decreasing in output order. -/
theorem claim_C5 (labels : List ℤ) (stp : ℚ)
    (hpos : ∀ l ∈ labels, 0 ≤ l) (hstp : 0 < stp) :
    (∀ b e l, isMaxRun labels b e l → 2 ≤ l →
      (write_rttm_turns labels stp).count
        ⟨(b : ℚ) * stp, ((e - b + 1 : ℕ) : ℚ) * stp, l⟩ = 1) ∧
    (∀ t ∈ write_rttm_turns labels stp,
      ∃ b e, isMaxRun labels b e t.label ∧ 2 ≤ t.label ∧
        t.onset = (b : ℚ) * stp ∧ t.duration = ((e - b + 1 : ℕ) : ℚ) * stp) ∧
    List.Chain' (fun t u : Turn => t.onset ≤ u.onset)
      (write_rttm_turns labels stp) := by
  have hW : write_rttm_turns labels stp =
      (labeledRuns labels).filterMap (turnF stp) := rfl
  have hnd : (labeledRuns labels).Nodup := by
    have hp := tiles_pairwise_lt labels _ 0 (tiles_labeledRuns labels hpos)
    exact hp.imp (fun hlt heq => absurd (heq ▸ hlt) (lt_irrefl _))
  refine ⟨?_, ?_, ?_⟩
  · intro b e l hmr hl2
    rw [hW]
    have hmem := maxrun_mem_labeledRuns labels hpos b e l hmr
    have hF : turnF stp (b, e, l) =
        some ⟨(b : ℚ) * stp, ((e - b + 1 : ℕ) : ℚ) * stp, l⟩ := by
      rw [turnF, if_neg (show ¬ ((b, e, l) : ℕ × ℕ × ℤ).2.2 < 2 by
        simp only []
        omega)]
    have huniq : ∀ r ∈ labeledRuns labels,
        turnF stp r = some ⟨(b : ℚ) * stp, ((e - b + 1 : ℕ) : ℚ) * stp, l⟩ →
        r = (b, e, l) := by
      intro r hr hFr
      obtain ⟨hge2, hteq⟩ := turnF_eq_some stp r _ hFr
      have honset : (b : ℚ) * stp = (r.1 : ℚ) * stp := congrArg Turn.onset hteq
      have hdur : ((e - b + 1 : ℕ) : ℚ) * stp =
          ((r.2.1 - r.1 + 1 : ℕ) : ℚ) * stp := congrArg Turn.duration hteq
      have hlab : l = r.2.2 := congrArg Turn.label hteq
      have hb : r.1 = b := by
        have hq := mul_right_cancel₀ (ne_of_gt hstp) honset
        exact_mod_cast hq.symm
      have hrfacts := tiles_run_facts labels _ 0
        (tiles_labeledRuns labels hpos) r hr
      have he : r.2.1 = e := by
        have hq := mul_right_cancel₀ (ne_of_gt hstp) hdur
        have hn : (e - b + 1 : ℕ) = (r.2.1 - r.1 + 1 : ℕ) := by exact_mod_cast hq
        have h1 := hrfacts.2.1
        have h2 := hmr.1
        omega
      have hr3 : r = (r.1, r.2.1, r.2.2) := rfl
      rw [hr3, hb, he, ← hlab]
    exact count_filterMap_one (turnF stp) (labeledRuns labels) hnd _
      (b, e, l) hmem hF huniq
  · intro t ht
    rw [hW] at ht
    obtain ⟨r, hr, hFr⟩ := List.mem_filterMap.mp ht
    obtain ⟨hge2, hteq⟩ := turnF_eq_some stp r t hFr
    have hmr := labeledRuns_maxrun labels hpos r hr
    subst hteq
    exact ⟨r.1, r.2.1, hmr, hge2, rfl, rfl⟩
  · rw [hW]
    have hp := tiles_pairwise_lt labels _ 0 (tiles_labeledRuns labels hpos)
    have hpt : ((labeledRuns labels).filterMap (turnF stp)).Pairwise
        (fun t u : Turn => t.onset ≤ u.onset) := by
      apply List.Pairwise.filterMap (turnF stp) ?_ hp
      intro a b hab x hx y hy
      obtain ⟨_, hxeq⟩ := turnF_eq_some stp a x (Option.mem_def.mp hx)
      obtain ⟨_, hyeq⟩ := turnF_eq_some stp b y (Option.mem_def.mp hy)
      rw [hxeq, hyeq]
      show (a.1 : ℚ) * stp ≤ (b.1 : ℚ) * stp
      apply mul_le_mul_of_nonneg_right _ (le_of_lt hstp)
      exact_mod_cast le_of_lt hab
    exact hpt.chain'

/-- Witness for C5: in `[0, 2, 2, 0, 3]` the maximal run of label 2 is
frames `[1, 2]`; exactly one turn with onset `1 * step` and duration
`2 * step` is emitted for it. -/
theorem claim_C5_witness :
    (write_rttm_turns [0, 2, 2, 0, 3] step).count
      ⟨(1 : ℕ) * step, ((2 - 1 + 1 : ℕ) : ℚ) * step, 2⟩ = 1 :=
  (claim_C5 [0, 2, 2, 0, 3] step (by decide) step_pos).1 1 2 2
    (by decide) (by decide)

/-! ## C3: round trip through the RTTM encoding and the loader -/

theorem paintFrom_length (lab : ℤ) (b e : ℕ) :
    ∀ (arr : List ℤ) (i : ℕ), (paintFrom lab b e i arr).length = arr.length := by
  intro arr
  induction arr with
  | nil => intro i; rfl
  | cons cur rest ih => intro i; simp [paintFrom, ih]

theorem paint_length (arr : List ℤ) (lab : ℤ) (b e : ℕ) :
    (paint arr lab b e).length = arr.length :=
  paintFrom_length lab b e arr 0

theorem paintFrom_getD (lab : ℤ) (b e : ℕ) :
    ∀ (arr : List ℤ) (i j : ℕ), j < arr.length →
      (paintFrom lab b e i arr).getD j 0 =
        if b ≤ i + j ∧ i + j ≤ e then lab else arr.getD j 0 := by
  intro arr
  induction arr with
  | nil => intro i j hj; simp at hj
  | cons cur rest ih =>
    intro i j hj
    cases j with
    | zero => simp [paintFrom]
    | succ j2 =>
      have hj2 : j2 < rest.length := by simpa using hj
      have h := ih (i + 1) j2 hj2
      simp only [paintFrom, List.getD_cons_succ]
      rw [h]
      rw [show i + 1 + j2 = i + (j2 + 1) by omega]

theorem paint_getD (arr : List ℤ) (lab : ℤ) (b e : ℕ) (j : ℕ)
    (hj : j < arr.length) :
    (paint arr lab b e).getD j 0 =
      if b ≤ j ∧ j ≤ e then lab else arr.getD j 0 := by
  have h := paintFrom_getD lab b e arr 0 j hj
  simpa [paint] using h

/-- Decoding a turn emitted for the run `[b, e]` of a recording with
`n > e` frames: the loader computes onset frame `b` and offset frame
`e + 1` (one frame PAST the run end, since
`offset_seconds / step = b + run_length`), clamps it to `n - 1` when it
reaches past the end, and accepts the segment. -/
theorem processLine_decode (b e n : ℕ) (tag rid : String)
    (hbe : b ≤ e) (hen : e < n) :
    (processLine ⟨(b : ℚ) * step, ((e - b + 1 : ℕ) : ℚ) * step, tag⟩
        rid n step).2 =
      some ⟨rid, b, min (e + 1) (n - 1), tag⟩ := by
  have hon : pyInt (((b : ℚ) * step) / step) = (b : ℤ) := by
    rw [mul_div_cancel_right₀ _ step_ne_zero, pyInt_natCast]
  have hsum : ((b : ℚ) * step + ((e - b + 1 : ℕ) : ℚ) * step) =
      ((e + 1 : ℕ) : ℚ) * step := by
    rw [← add_mul]
    congr 1
    push_cast [Nat.cast_sub hbe]
    ring
  have hoff : pyInt (((b : ℚ) * step + ((e - b + 1 : ℕ) : ℚ) * step) / step) =
      ((e + 1 : ℕ) : ℤ) := by
    rw [hsum, mul_div_cancel_right₀ _ step_ne_zero, pyInt_natCast]
  simp only [processLine]
  rw [hon, hoff]
  by_cases hclamp : (n : ℤ) ≤ ((e + 1 : ℕ) : ℤ)
  · rw [if_pos hclamp]
    rw [if_pos (by constructor <;> omega)]
    simp only [Option.some.injEq, Segment.mk.injEq]
    exact ⟨trivial, by omega, by omega, trivial⟩
  · rw [if_neg hclamp]
    rw [if_pos (by constructor <;> omega)]
    simp only [Option.some.injEq, Segment.mk.injEq]
    exact ⟨trivial, by omega, by omega, trivial⟩

/-- Expansion characterization: painting the decoded turns of a tiling
of `[lo, n)` onto `arr` succeeds, and yields, at each frame `i`: the
original label when it is `≥ 2`; the previous frame's label when that
one is `≥ 2` (the one-frame bleed of the decoded turn past its run);
and otherwise the untouched `arr` value. -/
theorem expand_char (labels : List ℤ) (n : ℕ) (hn : n = labels.length)
    (runs : List (ℕ × ℕ × ℤ)) (lo : ℕ) (ht : Tiles labels runs lo) :
    ∀ arr : List ℤ, arr.length = n →
    ∃ res, expandTurnsAux n arr (runs.filterMap (turnF step)) = some res ∧
      res.length = n ∧
      ∀ i < n, res.getD i 0 =
        if lo ≤ i then
          (if 2 ≤ labels.getD i 0 then labels.getD i 0
           else if lo < i ∧ 2 ≤ labels.getD (i - 1) 0 then labels.getD (i - 1) 0
           else arr.getD i 0)
        else arr.getD i 0 := by
  induction ht with
  | nil lo2 h =>
    intro arr harr
    refine ⟨arr, rfl, harr, ?_⟩
    intro i hi
    rw [if_neg (by omega)]
  | cons b e l rs lo2 hb hbe hen hconst hdiff htail ih =>
    intro arr harr
    by_cases hl2 : l < 2
    · have hfm : (((b, e, l) :: rs).filterMap (turnF step)) =
          rs.filterMap (turnF step) :=
        List.filterMap_cons_none (by rw [turnF, if_pos hl2])
      rw [hfm]
      obtain ⟨res, hres, hlen, hpt⟩ := ih arr harr
      refine ⟨res, hres, hlen, ?_⟩
      intro i hi
      have hp := hpt i hi
      by_cases hlo : lo2 ≤ i
      · rw [if_pos hlo]
        by_cases hcase1 : 2 ≤ labels.getD i 0
        · rw [if_pos hcase1, hp]
          by_cases hie : e + 1 ≤ i
          · rw [if_pos hie, if_pos hcase1]
          · exfalso
            have hv : labels.getD i 0 = l := hconst i (by omega) (by omega)
            omega
        · rw [if_neg hcase1]
          by_cases hcase2 : lo2 < i ∧ 2 ≤ labels.getD (i - 1) 0
          · rw [if_pos hcase2, hp]
            by_cases hie : e + 1 ≤ i
            · have hgt : e + 1 < i := by
                rcases Nat.lt_or_ge (e + 1) i with hq | hq
                · exact hq
                · exfalso
                  have hieq : i = e + 1 := by omega
                  have hv : labels.getD (i - 1) 0 = l :=
                    hconst (i - 1) (by omega) (by omega)
                  omega
              rw [if_pos hie, if_neg hcase1, if_pos ⟨hgt, hcase2.2⟩]
            · exfalso
              have hv : labels.getD (i - 1) 0 = l :=
                hconst (i - 1) (by omega) (by omega)
              omega
          · rw [if_neg hcase2, hp]
            by_cases hie : e + 1 ≤ i
            · rw [if_pos hie, if_neg hcase1, if_neg ?_]
              intro hcon
              exact hcase2 ⟨by omega, hcon.2⟩
            · rw [if_neg hie]
      · rw [if_neg hlo, hp, if_neg (by omega)]
    · have hFv : turnF step (b, e, l) =
          some ⟨(b : ℚ) * step, ((e - b + 1 : ℕ) : ℚ) * step, l⟩ := by
        rw [turnF, if_neg hl2]
      have hfm : (((b, e, l) :: rs).filterMap (turnF step)) =
          (⟨(b : ℚ) * step, ((e - b + 1 : ℕ) : ℚ) * step, l⟩ : Turn) ::
            rs.filterMap (turnF step) :=
        List.filterMap_cons_some hFv
      rw [hfm]
      have hen2 : e < n := by omega
      have hdec := processLine_decode b e n "spk" "rec" hbe hen2
      rw [expandTurnsAux]
      rw [hdec]
      have harr2len : (paint arr l b (min (e + 1) (n - 1))).length = n := by
        rw [paint_length]; exact harr
      obtain ⟨res, hres, hlen, hpt⟩ := ih (paint arr l b (min (e + 1) (n - 1))) harr2len
      refine ⟨res, hres, hlen, ?_⟩
      intro i hi
      have hp := hpt i hi
      have hpaint : ∀ j, j < n →
          (paint arr l b (min (e + 1) (n - 1))).getD j 0 =
            if b ≤ j ∧ j ≤ min (e + 1) (n - 1) then l else arr.getD j 0 := by
        intro j hj
        exact paint_getD arr l b (min (e + 1) (n - 1)) j (by omega)
      by_cases hlo : lo2 ≤ i
      · rw [if_pos hlo]
        by_cases hcase1 : 2 ≤ labels.getD i 0
        · rw [if_pos hcase1, hp]
          by_cases hie : e + 1 ≤ i
          · rw [if_pos hie, if_pos hcase1]
          · rw [if_neg hie, hpaint i hi,
              if_pos ⟨by omega, by omega⟩]
            have hv : labels.getD i 0 = l := hconst i (by omega) (by omega)
            rw [hv]
        · rw [if_neg hcase1]
          by_cases hcase2 : lo2 < i ∧ 2 ≤ labels.getD (i - 1) 0
          · rw [if_pos hcase2, hp]
            by_cases hieq : i = e + 1
            · rw [if_pos (by omega), if_neg hcase1, if_neg (by omega)]
              rw [hpaint i hi, if_pos ⟨by omega, by omega⟩]
              have hv : labels.getD (i - 1) 0 = l :=
                hconst (i - 1) (by omega) (by omega)
              rw [hv]
            · by_cases hie : e + 1 ≤ i
              · rw [if_pos hie, if_neg hcase1, if_pos ⟨by omega, hcase2.2⟩]
              · exfalso
                have hv : labels.getD i 0 = l := hconst i (by omega) (by omega)
                omega
          · rw [if_neg hcase2, hp]
            by_cases hie : e + 1 ≤ i
            · have hgt : e + 1 < i := by
                rcases Nat.lt_or_ge (e + 1) i with hq | hq
                · exact hq
                · exfalso
                  have hv : labels.getD (i - 1) 0 = l :=
                    hconst (i - 1) (by omega) (by omega)
                  exact hcase2 ⟨by omega, by omega⟩
              rw [if_pos hie, if_neg hcase1, if_neg ?_]
              · rw [hpaint i hi, if_neg (by omega)]
              · intro hcon
                exact hcase2 ⟨by omega, hcon.2⟩
            · exfalso
              have hv : labels.getD i 0 = l := hconst i (by omega) (by omega)
              omega
      · rw [if_neg hlo, hp, if_neg (by omega), hpaint i hi, if_neg (by omega)]

/-- Full round-trip characterization: encoding a nonnegative label
array with the default step and re-expanding the turns as the loader
does reproduces labels `≥ 2` exactly, paints the single frame after
each such run with that run's label (the off-by-one bleed of the
decoder), and yields `0` everywhere else. -/
theorem roundTrip_char (labels : List ℤ) (hpos : ∀ l ∈ labels, 0 ≤ l) :
    ∃ res, roundTrip labels = some res ∧ res.length = labels.length ∧
      ∀ i < labels.length, res.getD i 0 =
        if 2 ≤ labels.getD i 0 then labels.getD i 0
        else if 0 < i ∧ 2 ≤ labels.getD (i - 1) 0 then labels.getD (i - 1) 0
        else 0 := by
  have ht := tiles_labeledRuns labels hpos
  obtain ⟨res, hres, hlen, hpt⟩ := expand_char labels labels.length rfl
    (labeledRuns labels) 0 ht (List.replicate labels.length 0)
    (List.length_replicate _ _)
  refine ⟨res, hres, hlen, ?_⟩
  intro i hi
  have hp := hpt i hi
  rw [if_pos (by omega)] at hp
  rw [hp]
  by_cases h1 : 2 ≤ labels.getD i 0
  · rw [if_pos h1, if_pos h1]
  · rw [if_neg h1, if_neg h1]
    by_cases h2 : 0 < i ∧ 2 ≤ labels.getD (i - 1) 0
    · rw [if_pos h2, if_pos h2]
    · rw [if_neg h2, if_neg h2]
      exact getD_replicate_zero _ i

/-- Counterexample to C3 as stated: for `labels = [2, 0]`, the claim
demands the re-expanded array be `0` at frame 1 (whose original label
is `0 < 2`); but the emitted turn (onset `0.00`, duration `0.01`) is
decoded by the loader to the inclusive frame range `[0, 1]` — one frame
past the run end, because `offset_frames = int((onset+duration)/step)`
lands on the frame AFTER the run — so frame 1 receives label 2. -/
theorem claim_C3_counterexample :
    ¬ (∀ res : List ℤ, roundTrip [2, 0] = some res →
        ∀ i < ([2, 0] : List ℤ).length,
          res.getD i 0 =
            if 2 ≤ ([2, 0] : List ℤ).getD i 0 then ([2, 0] : List ℤ).getD i 0
            else 0) := by
  intro hclaim
  obtain ⟨res, hres, hlen, hpt⟩ := roundTrip_char [2, 0] (by decide)
  have h1 := hclaim res hres 1 (by decide)
  have h2 := hpt 1 (by decide)
  simp at h1 h2
  omega

/-- C3 (amended): re-expanding the emitted turns (frame indices
computed exactly as the loader computes them, uncovered frames filled
with `0`) reproduces the original array exactly at every frame whose
label is `≥ 2`; but a frame with label `< 2` that immediately follows a
frame with label `≥ 2` receives that preceding frame's label — each
decoded turn covers one extra frame past its run's end, because the
loader computes the offset frame index as `int((onset+duration)/step)`,
which is the frame after the run (clamped at the recording end) — and
every other frame with label `< 2` yields `0`.  This holds regardless
of whether the original array contains the overlap label `1`. -/
theorem claim_C3 (labels : List ℤ) (hpos : ∀ l ∈ labels, 0 ≤ l) :
    ∃ res, roundTrip labels = some res ∧ res.length = labels.length ∧
      ∀ i < labels.length, res.getD i 0 =
        if 2 ≤ labels.getD i 0 then labels.getD i 0
        else if 0 < i ∧ 2 ≤ labels.getD (i - 1) 0 then labels.getD (i - 1) 0
        else 0 :=
  roundTrip_char labels hpos

/-- Witness for C3: the amended characterization applied to `[0, 2]`. -/
theorem claim_C3_witness :
    ∃ res, roundTrip [(0 : ℤ), 2] = some res ∧
      res.length = ([(0 : ℤ), 2] : List ℤ).length ∧
      ∀ i < ([(0 : ℤ), 2] : List ℤ).length, res.getD i 0 =
        if 2 ≤ ([(0 : ℤ), 2] : List ℤ).getD i 0 then
          ([(0 : ℤ), 2] : List ℤ).getD i 0
        else if 0 < i ∧ 2 ≤ ([(0 : ℤ), 2] : List ℤ).getD (i - 1) 0 then
          ([(0 : ℤ), 2] : List ℤ).getD (i - 1) 0
        else 0 :=
  claim_C3 [0, 2] (by decide)

end VBReseg
